import Mathlib

/-!
Verification development for the struct storage-layout tool (src/main.rs).

The tool parses textual Solidity-style struct definitions into a type value
(SolType), registers all structs in a map, and computes the total bit size of
each struct under 256-bit slot-packing rules (SolType::size / update_state).

The embedding below works at the level of character lists (Str := List Char),
mirroring the Rust string operations (trim, replace, starts_with, ends_with,
contains) and the two regexes MAPPING_REGEX and FIXED_ARRAY_REGEX with
dedicated deterministic matchers.  The recursive sizing functions carry an
explicit fuel argument (structural recursion) because the source recursion is
unbounded through registry references; running out of fuel is reported as a
distinguished error and models the source's unbounded recursion depth.
-/

/-- Character strings as plain lists of characters. -/
abbrev Str := List Char

/-- Model of Rust char::is_whitespace, restricted to the ASCII whitespace
characters that can appear in the tool's inputs. -/
def isWhitespaceCh (c : Char) : Bool :=
  c == ' ' || c == '\t' || c == '\n' || c == '\r'

/-- Model of the regex character class \w (ASCII range): letters, digits and
underscore. -/
def isWordChar (c : Char) : Bool :=
  ('a' ≤ c && c ≤ 'z') || ('A' ≤ c && c ≤ 'Z') || ('0' ≤ c && c ≤ '9') || c == '_'

/-- Model of the regex character class \d (ASCII decimal digit). -/
def isDigitCh (c : Char) : Bool := '0' ≤ c && c ≤ '9'

/-- Model of Rust str::trim: strip whitespace from both ends. -/
def trimChars (cs : Str) : Str :=
  ((cs.dropWhile isWhitespaceCh).reverse.dropWhile isWhitespaceCh).reverse

/-- Model of Rust str::starts_with (also used for suffix and literal tests). -/
def strPrefixOf : Str → Str → Bool
  | [], _ => true
  | _ :: _, [] => false
  | p :: ps, c :: cs => p == c && strPrefixOf ps cs

/-- Model of Rust str::ends_with. -/
def strSuffixOf (suffix s : Str) : Bool := strPrefixOf suffix.reverse s.reverse

/-- Model of Rust str::contains with a single-character pattern. -/
def strContainsChar (s : Str) (c : Char) : Bool := s.any (fun d => d == c)

/-- Model of Rust str::replace with pattern "[]" and empty replacement:
remove every (non-overlapping, left-to-right) occurrence of "[]". -/
def removeBrackets : Str → Str
  | '[' :: ']' :: rest => removeBrackets rest
  | c :: rest => c :: removeBrackets rest
  | [] => []

/-- Model of Rust str::replace with pattern "bytes" and empty replacement. -/
def removeBytes : Str → Str
  | 'b' :: 'y' :: 't' :: 'e' :: 's' :: rest => removeBytes rest
  | c :: rest => c :: removeBytes rest
  | [] => []

/-- Model of Rust str::replace with pattern "uint" and empty replacement. -/
def removeUint : Str → Str
  | 'u' :: 'i' :: 'n' :: 't' :: rest => removeUint rest
  | c :: rest => c :: removeUint rest
  | [] => []

/-- Model of Rust str::replace with pattern "int" and empty replacement. -/
def removeInt : Str → Str
  | 'i' :: 'n' :: 't' :: rest => removeInt rest
  | c :: rest => c :: removeInt rest
  | [] => []

/-- Value of a list of decimal digits. -/
def digitsToNat (cs : Str) : Nat :=
  cs.foldl (fun a c => a * 10 + (c.toNat - 48)) 0

/-- Model of Rust unsigned-integer FromStr (str::parse::<uN>): an optional
leading plus sign, then one or more decimal digits, whose value must not
exceed the type's maximum; anything else is an error (modelled as none). -/
def parseUInt (bound : Nat) (s : Str) : Option Nat :=
  let digits := if s.head? = some '+' then s.tail else s
  if digits.isEmpty then none
  else if digits.all isDigitCh && digitsToNat digits ≤ bound then some (digitsToNat digits)
  else none

/-- Largest u64 value, the bound for fixed-array repeat counts. -/
def u64Max : Nat := 18446744073709551615

/-- The SolType enum from the source.  SolStruct's name and fields are inlined
into the Custom constructor (the struct's raw-text _inner field is dropped: it
is never read by the sizing code). -/
inductive SolType where
  | Uint (w : Nat)
  | Int (w : Nat)
  | Address
  | Bool
  | Bytes (n : Nat)
  | BytesArbitrary
  | Custom (sname : Str) (fields : List (Str × SolType))
  | Custom2 (name : Str)
  | Mapping (key val : SolType)
  | Array (elem : SolType)
  | FixedArray (elem : SolType) (len : Nat)

/-- A registered struct: its name and its ordered (field name, type) list. -/
abbrev StructDef := Str × List (Str × SolType)

/-- The all_structs map (BTreeMap<String, SolStruct> in the source). -/
abbrev Registry := List (Str × StructDef)

/-- Lookup in the registry (BTreeMap::get). -/
def lookupReg : Registry → Str → Option StructDef
  | [], _ => none
  | (k, v) :: rest, name => if k = name then some v else lookupReg rest name

/-- The snap_to_upper_256 helper from the source: round up to the next
multiple of 256, leaving exact multiples unchanged. -/
def snap_to_upper_256 (size : Nat) : Nat :=
  let over := size % 256
  if over == 0 then size else size + 256 - over

/-- The value-type arms of SolType::size (source lines 45-49).  These arms are
non-recursive and never error; the fold update_state calls typ.size on exactly
these variants to obtain bits_needed.  Non-value variants are given a dummy 0
(never used at those variants). -/
def valueTypeBits : SolType → Nat
  | .Uint w => w
  | .Int w => w
  | .Address => 20 * 8
  | .Bool => 1
  | .Bytes n => n * 8
  | _ => 0

/-- The variants handled by the value-type arm of update_state. -/
def isValueType : SolType → Bool
  | .Uint _ | .Int _ | .Address | .Bool | .Bytes _ => true
  | _ => false

/-- The variants handled by the full-slot arm of update_state (mapping,
dynamic array, arbitrary-length bytes). -/
def isDynamicSlot : SolType → Bool
  | .Mapping _ _ | .Array _ | .BytesArbitrary => true
  | _ => false

/-- Errors of the sizing computation.  structNotFound and unknownStruct model
the two eyre error messages for unresolvable references; fuelExhausted is the
embedding's rendering of the source's unbounded recursion depth. -/
inductive SizeErr where
  | structNotFound (name : Str)
  | unknownStruct (name : Str)
  | fuelExhausted

/-- The types of a struct's fields, in declaration order (the fold in
SolType::size iterates over field (name, typ) pairs reading only typ). -/
def fieldTypes (fields : List (Str × SolType)) : List SolType :=
  fields.map (fun p => p.2)

/-- The stateful fold of update_state (source lines 55-136), applied to a list
of field types.  State is (current_word_bits_allocated, size); each field is
processed by the per-variant rules and the rest of the list continues with the
updated state.  The for-loop over a fixed array's elements is modelled by
processing List.replicate len elem.  Fuel decreases on every recursive call;
fuel 0 reports fuelExhausted. -/
def updList : Nat → List SolType → Nat → Nat → Registry → Except SizeErr (Nat × Nat)
  | 0, _, _, _, _ => .error .fuelExhausted
  | _ + 1, [], cwba, size, _ => .ok (cwba, size)
  | fuel + 1, typ :: rest, cwba, size, reg =>
    let remainder_bits := 256 - cwba
    match typ with
    | .Uint _ | .Int _ | .Address | .Bool | .Bytes _ =>
      let bits_needed := valueTypeBits typ
      if bits_needed ≤ remainder_bits then
        updList fuel rest (cwba + bits_needed) (size + bits_needed) reg
      else
        updList fuel rest bits_needed (size + remainder_bits + bits_needed) reg
    | .FixedArray elem len =>
      match updList fuel (List.replicate len elem) 0 (snap_to_upper_256 size) reg with
      | .error e => .error e
      | .ok p => updList fuel rest p.1 p.2 reg
    | .Mapping _ _ | .Array _ | .BytesArbitrary =>
      updList fuel rest 0 (snap_to_upper_256 size + 256) reg
    | .Custom _ fields =>
      match updList fuel (fieldTypes fields) 0 0 reg with
      | .error e => .error e
      | .ok p => updList fuel rest 0 (snap_to_upper_256 (snap_to_upper_256 size + p.2)) reg
    | .Custom2 name =>
      match lookupReg reg name with
      | some st =>
        match updList fuel [SolType.Custom st.1 st.2] cwba size reg with
        | .error e => .error e
        | .ok p => updList fuel rest p.1 p.2 reg
      | none => .error (.structNotFound name)

/-- SolType::size (source lines 43-160), with fuel.  The Custom arm folds
update_state over the struct's fields from the fresh state (0, 0) and returns
the accumulated size; the standalone FixedArray arm rounds the element size up
by adding (256 - size % 256) and multiplies by the repeat count. -/
def sizeF : Nat → SolType → Registry → Except SizeErr Nat
  | 0, _, _ => .error .fuelExhausted
  | fuel + 1, t, reg =>
    match t with
    | .Uint w => .ok w
    | .Int w => .ok w
    | .Address => .ok (20 * 8)
    | .Bool => .ok 1
    | .Bytes n => .ok (n * 8)
    | .BytesArbitrary => .ok 256
    | .Custom _ fields =>
      match updList fuel (fieldTypes fields) 0 0 reg with
      | .error e => .error e
      | .ok p => .ok p.2
    | .Custom2 name =>
      match lookupReg reg name with
      | some st => sizeF fuel (.Custom st.1 st.2) reg
      | none => .error (.unknownStruct name)
    | .Mapping _ _ => .ok 256
    | .Array _ => .ok 256
    | .FixedArray elem len =>
      match sizeF fuel elem reg with
      | .error e => .error e
      | .ok sz => .ok ((sz + (256 - sz % 256)) * len)

/-- The keyword table entries bytes1 .. bytes32 of SolType::from_str. -/
def bytesKeywords : List Str :=
  (List.range 32).map (fun n => ("bytes" ++ toString (n + 1)).data)

/-- The keyword table entries uint8, uint16, ..., uint256 (multiples of 8). -/
def uintKeywords : List Str :=
  (List.range 32).map (fun n => ("uint" ++ toString (8 * (n + 1))).data)

/-- The keyword table entries int8, int16, ..., int256 (multiples of 8). -/
def intKeywords : List Str :=
  (List.range 32).map (fun n => ("int" ++ toString (8 * (n + 1))).data)

/-- Attempt to match a literal at the head of a string, returning the rest. -/
def dropLit : Str → Str → Option Str
  | [], cs => some cs
  | _ :: _, [] => none
  | p :: ps, c :: cs => if p = c then dropLit ps cs else none

/-- Attempt to match FIXED_ARRAY_REGEX, that is
\s*(?<type>\w+)\s*\[\s*(?<size>\d+)\s*\]\s* , at the start of the string,
returning the two captures.  Greedy runs need no backtracking here: a shorter
\w+ (resp. \d+) run would leave a word (resp. digit) character where the
pattern next requires whitespace, a bracket or a digit run, all of which are
disjoint from the run's class, so maximal runs are exact. -/
def faMatchAt (cs : Str) : Option (Str × Str) :=
  let w := cs.takeWhile isWordChar
  if w.isEmpty then none
  else
    match (cs.dropWhile isWordChar).dropWhile isWhitespaceCh with
    | '[' :: r1 =>
      let r2 := r1.dropWhile isWhitespaceCh
      let d := r2.takeWhile isDigitCh
      if d.isEmpty then none
      else
        match (r2.dropWhile isDigitCh).dropWhile isWhitespaceCh with
        | ']' :: _ => some (w, d)
        | _ => none
    | _ => none

/-- Regex search for FIXED_ARRAY_REGEX: try each start position from the left
(the pattern's leading \s* is subsumed by trying every start). -/
def faSearch : Str → Option (Str × Str)
  | [] => none
  | c :: rest =>
    match faMatchAt (c :: rest) with
    | some r => some r
    | none => faSearch rest

/-- Attempt to match MAPPING_REGEX, that is
\s*mapping\s*\(\s*(?<key_type>\w+)\s*=>\s*(?<value_type>\w+(?:\[\d*\])?)\s*\) ,
at the start of the string, returning the key and value captures.  As in
faMatchAt, maximal \w+ / \d* runs are exact; the optional bracket group is
tried greedily and if it cannot complete (or the closing parenthesis does not
follow) the alternative without the group also fails, because the leftover
character is then a bracket where \s*\) is required. -/
def mpMatchAt (cs : Str) : Option (Str × Str) :=
  match dropLit ['m', 'a', 'p', 'p', 'i', 'n', 'g'] cs with
  | none => none
  | some r0 =>
    match (r0.dropWhile isWhitespaceCh) with
    | '(' :: r1 =>
      let r2 := r1.dropWhile isWhitespaceCh
      let k := r2.takeWhile isWordChar
      if k.isEmpty then none
      else
        match (r2.dropWhile isWordChar).dropWhile isWhitespaceCh with
        | '=' :: '>' :: r3 =>
          let r4 := r3.dropWhile isWhitespaceCh
          let v := r4.takeWhile isWordChar
          if v.isEmpty then none
          else
            match r4.dropWhile isWordChar with
            | '[' :: r5 =>
              let ds := r5.takeWhile isDigitCh
              match r5.dropWhile isDigitCh with
              | ']' :: r6 =>
                match r6.dropWhile isWhitespaceCh with
                | ')' :: _ => some (k, v ++ '[' :: ds ++ [']'])
                | _ => none
              | _ => none
            | r5 =>
              match r5.dropWhile isWhitespaceCh with
              | ')' :: _ => some (k, v)
              | _ => none
        | _ => none
    | _ => none

/-- Regex search for MAPPING_REGEX: try each start position from the left. -/
def mpSearch : Str → Option (Str × Str)
  | [] => none
  | c :: rest =>
    match mpMatchAt (c :: rest) with
    | some r => some r
    | none => mpSearch rest

/-- Errors of the type-expression parser: the two regex mismatch errors, a
numeric-literal parse failure, and the embedding's fuel bound for the
recursive sub-parses. -/
inductive ParseErr where
  | mappingNoMatch (s : Str)
  | fixedArrayNoMatch (s : Str)
  | intLit (s : Str)
  | fuelOut

/-- SolType::from_str (source lines 167-241).  The scrutinee of the Rust match
is s.trim(); keyword arms and guard arms test the trimmed string.  Note that
the replace calls of the bytesN / uintN / intN arms and the final Custom2
fallback use the ORIGINAL parameter s (the untrimmed string): the literal
match arms and the wildcard arm do not rebind s, while the guard arms do. -/
def fromStr : Nat → Str → Except ParseErr SolType
  | 0, _ => .error .fuelOut
  | fuel + 1, s0 =>
    let s := trimChars s0
    if s = "uint".data then .ok (.Uint 256)
    else if s = "int".data then .ok (.Int 256)
    else if s = "address".data then .ok .Address
    else if s = "bool".data then .ok .Bool
    else if s = "bytes".data then .ok .BytesArbitrary
    else if bytesKeywords.contains s then
      match parseUInt 255 (removeBytes s0) with
      | some n => .ok (.Bytes n)
      | none => .error (.intLit s0)
    else if uintKeywords.contains s then
      match parseUInt 65535 (removeUint s0) with
      | some n => .ok (.Uint n)
      | none => .error (.intLit s0)
    else if intKeywords.contains s then
      match parseUInt 65535 (removeInt s0) with
      | some n => .ok (.Int n)
      | none => .error (.intLit s0)
    else if strPrefixOf "mapping".data s then
      match mpSearch s with
      | none => .error (.mappingNoMatch s)
      | some (kt, vt) =>
        match fromStr fuel kt with
        | .error e => .error e
        | .ok k =>
          match fromStr fuel vt with
          | .error e => .error e
          | .ok v => .ok (.Mapping k v)
    else if strSuffixOf "[]".data s then
      match fromStr fuel (removeBrackets s) with
      | .error e => .error e
      | .ok inner => .ok (.Array inner)
    else if strContainsChar s '[' && strContainsChar s ']' then
      match faSearch s with
      | none => .error (.fixedArrayNoMatch s)
      | some (vt, ns) =>
        match parseUInt u64Max ns with
        | none => .error (.intLit ns)
        | some n =>
          match fromStr fuel vt with
          | .error e => .error e
          | .ok t => .ok (.FixedArray t n)
    else .ok (.Custom2 s0)

/-! Helper lemmas about the packing fold. -/

theorem snap_to_upper_256_mod (n : Nat) : snap_to_upper_256 n % 256 = 0 := by
  unfold snap_to_upper_256
  by_cases h : n % 256 = 0
  · simp [h]
  · have hb : (n % 256 == 0) = false := by simpa using h
    simp only [hb, Bool.false_eq_true, if_false]
    omega

/-- The value-type transition of update_state, isolated: a single value-type
field at the head of the list performs the bit-packing step and the rest of
the list continues from the updated state. -/
theorem updList_value_step (t : SolType) (rest : List SolType) (c s f : Nat)
    (reg : Registry) (h : isValueType t = true) :
    updList (f + 1) (t :: rest) c s reg =
      if valueTypeBits t ≤ 256 - c then
        updList f rest (c + valueTypeBits t) (s + valueTypeBits t) reg
      else
        updList f rest (valueTypeBits t) (s + (256 - c) + valueTypeBits t) reg := by
  cases t <;> first | rfl | simp [isValueType] at h

/-- C1: a value-type field (integer, address, boolean, fixed-size bytes) with
bit width need either fits the current slot (need ≤ 256 - slot_bits_used), in
which case both total_bits and slot_bits_used grow by need, or it closes the
current slot, adding (256 - slot_bits_used) + need to total_bits and setting
slot_bits_used to need.  In particular two consecutive 128-bit fields pack
into exactly 256 bits (one slot), and three of them take 384 bits with the
third starting a fresh slot (slot_bits_used ends at 128). -/
theorem value_packing_rule :
    (∀ (t : SolType) (rest : List SolType) (c s f : Nat) (reg : Registry),
      isValueType t = true →
      updList (f + 1) (t :: rest) c s reg =
        if valueTypeBits t ≤ 256 - c then
          updList f rest (c + valueTypeBits t) (s + valueTypeBits t) reg
        else
          updList f rest (valueTypeBits t) (s + (256 - c) + valueTypeBits t) reg)
    ∧ updList 3 [SolType.Uint 128, SolType.Uint 128] 0 0 [] = .ok (256, 256)
    ∧ updList 4 [SolType.Uint 128, SolType.Uint 128, SolType.Uint 128] 0 0 []
        = .ok (128, 384)
    ∧ sizeF 4 (.Custom "Two".data [("a".data, .Uint 128), ("b".data, .Uint 128)]) []
        = .ok 256
    ∧ sizeF 5 (.Custom "Three".data
        [("a".data, .Uint 128), ("b".data, .Uint 128), ("c".data, .Uint 128)]) []
        = .ok 384 :=
  ⟨updList_value_step, rfl, rfl, rfl, rfl⟩

theorem value_packing_rule_witness :
    updList 2 [SolType.Address] 10 10 [] = .ok (170, 170) :=
  (value_packing_rule.1 SolType.Address [] 10 10 1 [] rfl).trans rfl

/-- C2: a named or inline record field first rounds total_bits up to a
multiple of 256 (resetting slot_bits_used to 0), adds the inner record's size
as computed by the same algorithm from the fresh state (0, 0), then rounds up
again, so the record starts and ends on a slot boundary and the rest of the
fields continue from slot_bits_used = 0.  The second conjunct is the link
between the standalone sizing function and the fold from a fresh state. -/
theorem nested_record_boundary_rule :
    (∀ (sname : Str) (fields : List (Str × SolType)) (rest : List SolType)
       (c s f inner : Nat) (reg : Registry),
      sizeF (f + 1) (.Custom sname fields) reg = .ok inner →
      updList (f + 1) (.Custom sname fields :: rest) c s reg =
          updList f rest 0 (snap_to_upper_256 (snap_to_upper_256 s + inner)) reg
        ∧ snap_to_upper_256 s % 256 = 0
        ∧ snap_to_upper_256 (snap_to_upper_256 s + inner) % 256 = 0)
    ∧ (∀ (sname : Str) (fields : List (Str × SolType)) (f : Nat) (reg : Registry),
      sizeF (f + 1) (.Custom sname fields) reg
        = (updList f (fieldTypes fields) 0 0 reg).map (fun p => p.2)) := by
  constructor
  · intro sname fields rest c s f inner reg h
    cases heq : updList f (fieldTypes fields) 0 0 reg with
    | error e => rw [sizeF, heq] at h; exact absurd h (by simp)
    | ok p =>
      rw [sizeF, heq] at h
      have hp : p.2 = inner := by simpa using h
      refine ⟨?_, snap_to_upper_256_mod s, snap_to_upper_256_mod _⟩
      rw [updList, heq]
      simp [hp]
  · intro sname fields f reg
    cases heq : updList f (fieldTypes fields) 0 0 reg with
    | error e => rw [sizeF, heq]; rfl
    | ok p => rw [sizeF, heq]; rfl

theorem nested_record_boundary_rule_witness :
    updList 3 [SolType.Custom "S".data [("a".data, SolType.Uint 8)]] 0 0 []
      = .ok (0, 256) :=
  ((nested_record_boundary_rule.1 "S".data [("a".data, SolType.Uint 8)] [] 0 0 2 8 []
    rfl).1).trans rfl

/-- C3 counterexample: sizing the standalone fixed repetition uint256[1], the
code yields 512 bits, while the element size 256 rounded up to a multiple of
256 times the count 1 is 256 — the standalone rule always adds the remainder
(256 - size % 256), which is a full extra slot when the element size is
already a multiple of 256. -/
theorem standalone_fixed_array_claim_counterexample :
    sizeF 2 (.FixedArray (.Uint 256) 1) [] = .ok 512
    ∧ snap_to_upper_256 256 * 1 = 256
    ∧ (512 : Nat) ≠ 256 :=
  ⟨rfl, rfl, by decide⟩

/-- C3 (amended): a standalone fixed repetition of an element sizing to sz
bits has size (sz + (256 - sz % 256)) * len.  This agrees with rounding up to
the next multiple of 256 when sz is not already a multiple, but adds a whole
extra 256-bit slot per element when sz is a multiple of 256 (including 0). -/
theorem standalone_fixed_array_size :
    (∀ (elem : SolType) (len f sz : Nat) (reg : Registry),
      sizeF f elem reg = .ok sz →
      sizeF (f + 1) (.FixedArray elem len) reg = .ok ((sz + (256 - sz % 256)) * len))
    ∧ (∀ sz : Nat, sz % 256 ≠ 0 → sz + (256 - sz % 256) = snap_to_upper_256 sz)
    ∧ (∀ sz : Nat, sz % 256 = 0 → sz + (256 - sz % 256) = sz + 256) := by
  refine ⟨?_, ?_, ?_⟩
  · intro elem len f sz reg h
    rw [sizeF, h]
  · intro sz h
    have hb : (sz % 256 == 0) = false := by simpa using h
    unfold snap_to_upper_256
    simp only [hb, Bool.false_eq_true, if_false]
    omega
  · intro sz h
    omega

theorem standalone_fixed_array_size_witness :
    sizeF 2 (.FixedArray (.Uint 8) 2) [] = .ok 512 :=
  (standalone_fixed_array_size.1 (SolType.Uint 8) 2 1 8 [] rfl).trans rfl

/-- C4: a fixed-repetition field FixedArray(E, N) first rounds total_bits up
to a multiple of 256 and resets slot_bits_used to 0, then runs the same
per-field transition over the N (replicated) elements on the shared state, and
the following fields continue directly from the resulting state — no forced
boundary after the repetition.  The second conjunct shows a value-type element
steps by the tight value-type rule with no per-element re-alignment; the last
conjunct evaluates uint128[3] inside a record: the three elements pack into
384 bits over two slots rather than three full slots. -/
theorem fixed_array_field_rule :
    (∀ (elem : SolType) (len : Nat) (rest : List SolType) (c s f : Nat)
       (reg : Registry) (p : Nat × Nat),
      updList f (List.replicate len elem) 0 (snap_to_upper_256 s) reg = .ok p →
      updList (f + 1) (.FixedArray elem len :: rest) c s reg
        = updList f rest p.1 p.2 reg)
    ∧ (∀ (elem : SolType) (n c s f : Nat) (reg : Registry),
      isValueType elem = true →
      updList (f + 1) (List.replicate (n + 1) elem) c s reg =
        if valueTypeBits elem ≤ 256 - c then
          updList f (List.replicate n elem) (c + valueTypeBits elem)
            (s + valueTypeBits elem) reg
        else
          updList f (List.replicate n elem) (valueTypeBits elem)
            (s + (256 - c) + valueTypeBits elem) reg)
    ∧ updList 5 [SolType.FixedArray (.Uint 128) 3] 0 0 [] = .ok (128, 384) := by
  refine ⟨?_, ?_, rfl⟩
  · intro elem len rest c s f reg p h
    rw [updList, h]
  · intro elem n c s f reg h
    rw [List.replicate_succ]
    exact updList_value_step elem (List.replicate n elem) c s f reg h

theorem fixed_array_field_rule_witness :
    updList 5 [SolType.FixedArray (SolType.Uint 128) 3, SolType.Bool] 0 0 []
      = .ok (129, 385) :=
  (fixed_array_field_rule.1 (SolType.Uint 128) 3 [SolType.Bool] 0 0 4 [] (128, 384)
    rfl).trans rfl

/-- C5: a mapping, dynamic-length array or arbitrary-length bytes field rounds
total_bits up to a multiple of 256, resets slot_bits_used to 0 and adds
exactly 256 bits, whatever the contained types; consequently a record whose
only field is a dynamic repetition has size exactly 256 bits for every element
type and registry. -/
theorem dynamic_full_slot_rule :
    (∀ (t : SolType) (rest : List SolType) (c s f : Nat) (reg : Registry),
      isDynamicSlot t = true →
      updList (f + 1) (t :: rest) c s reg
        = updList f rest 0 (snap_to_upper_256 s + 256) reg)
    ∧ (∀ (e : SolType) (reg : Registry),
      sizeF 3 (.Custom "S".data [("f".data, .Array e)]) reg = .ok 256) := by
  constructor
  · intro t rest c s f reg h
    cases t <;> first | rfl | simp [isDynamicSlot] at h
  · intro e reg
    rfl

theorem dynamic_full_slot_rule_witness :
    updList 2 [SolType.BytesArbitrary] 7 100 [] = .ok (0, 512) :=
  (dynamic_full_slot_rule.1 SolType.BytesArbitrary [] 7 100 1 [] rfl).trans rfl

/-- A directly self-referencing struct: struct A { A x; }. -/
def cyclicStruct : StructDef := ("A".data, [("x".data, SolType.Custom2 "A".data)])

/-- A registry containing only the self-referencing struct A. -/
def cyclicReg : Registry := [("A".data, cyclicStruct)]

/-- On the self-referencing registry the fold never completes: at every fuel
bound it reports fuel exhaustion, both when entering through the deferred
reference and when entering through the resolved inline struct. -/
theorem cyclic_updList (f : Nat) : ∀ c s : Nat,
    updList f [SolType.Custom2 "A".data] c s cyclicReg = .error .fuelExhausted
    ∧ updList f [SolType.Custom "A".data [("x".data, SolType.Custom2 "A".data)]] c s
        cyclicReg = .error .fuelExhausted := by
  induction f with
  | zero => intro c s; exact ⟨rfl, rfl⟩
  | succ g ih =>
    intro c s
    constructor
    · have h2 := (ih c s).2
      rw [updList]
      have hl : lookupReg cyclicReg "A".data = some cyclicStruct := rfl
      rw [hl]
      simp only [cyclicStruct]
      rw [h2]
    · have h1 := (ih 0 0).1
      rw [updList]
      have hft : fieldTypes [("x".data, SolType.Custom2 "A".data)]
          = [SolType.Custom2 "A".data] := rfl
      rw [hft, h1]

/-- C7: sizing the self-referencing record A through the registry never
succeeds at any recursion depth: every fuel bound ends in the fuel-exhaustion
error, the embedding's image of the source's unbounded recursion.  (The source
itself has no depth bound: on this input it recurses until the stack
overflows instead of returning the error the specification requires.) -/
theorem cyclic_reference_no_silent_success (f : Nat) :
    sizeF f (SolType.Custom2 "A".data) cyclicReg = .error .fuelExhausted := by
  match f with
  | 0 => rfl
  | 1 => rfl
  | g + 2 =>
    have h := (cyclic_updList g 0 0).1
    rw [sizeF]
    have hl : lookupReg cyclicReg "A".data = some cyclicStruct := rfl
    rw [hl]
    simp only [cyclicStruct]
    rw [sizeF]
    have hft : fieldTypes [("x".data, SolType.Custom2 "A".data)]
        = [SolType.Custom2 "A".data] := rfl
    rw [hft, h]

/-- Every value-type width occurring in a type is at most 256 bits, as is the
case for every type produced by the parser's keyword table (uintN/intN widths
are 8..256, address is 160, bool is 1, bytesN is at most 32 * 8). -/
inductive WidthsOk : SolType → Prop where
  | uint {w : Nat} : w ≤ 256 → WidthsOk (.Uint w)
  | int {w : Nat} : w ≤ 256 → WidthsOk (.Int w)
  | address : WidthsOk .Address
  | bool : WidthsOk .Bool
  | bytes {n : Nat} : n * 8 ≤ 256 → WidthsOk (.Bytes n)
  | bytesArb : WidthsOk .BytesArbitrary
  | custom {sname : Str} {fields : List (Str × SolType)} :
      (∀ p ∈ fields, WidthsOk p.2) → WidthsOk (.Custom sname fields)
  | custom2 {name : Str} : WidthsOk (.Custom2 name)
  | mapping {k v : SolType} : WidthsOk k → WidthsOk v → WidthsOk (.Mapping k v)
  | array {e : SolType} : WidthsOk e → WidthsOk (.Array e)
  | fixedArray {e : SolType} {n : Nat} : WidthsOk e → WidthsOk (.FixedArray e n)

/-- Every struct stored in the registry has widths-bounded field types. -/
def RegOk (reg : Registry) : Prop := ∀ e ∈ reg, ∀ p ∈ e.2.2, WidthsOk p.2

theorem valueTypeBits_le_of {t : SolType} (h : WidthsOk t)
    (hv : isValueType t = true) : valueTypeBits t ≤ 256 := by
  cases h with
  | uint hw => simpa [valueTypeBits] using hw
  | int hw => simpa [valueTypeBits] using hw
  | address => decide
  | bool => decide
  | bytes hn => simpa [valueTypeBits] using hn
  | bytesArb => simp [isValueType] at hv
  | custom hf => simp [isValueType] at hv
  | custom2 => simp [isValueType] at hv
  | mapping hk hv2 => simp [isValueType] at hv
  | array he => simp [isValueType] at hv
  | fixedArray he => simp [isValueType] at hv

theorem lookupReg_mem : ∀ (reg : Registry) (name : Str) (st : StructDef),
    lookupReg reg name = some st → ∃ k, (k, st) ∈ reg := by
  intro reg
  induction reg with
  | nil => intro name st h; exact absurd h (by simp [lookupReg])
  | cons e rest ih =>
    intro name st h
    obtain ⟨k, v⟩ := e
    rw [lookupReg] at h
    by_cases hk : k = name
    · rw [if_pos hk] at h
      exact ⟨k, by simp [Option.some_inj.mp h]⟩
    · rw [if_neg hk] at h
      obtain ⟨k', hk'⟩ := ih name st h
      exact ⟨k', List.mem_cons_of_mem _ hk'⟩

/-- C10: provided every value-type width in the processed field list and in
every registered struct is at most 256 bits, the fold preserves
slot_bits_used ≤ 256 from any state satisfying it: whenever the fold returns
successfully, the final slot_bits_used is again at most 256.  Instantiated at
every suffix of a record's field list this bounds the state before and after
every per-field transition of a run that starts from the initial state 0, so
the remainder computation 256 - slot_bits_used never underflows. -/
theorem slot_bits_bound_invariant :
    ∀ (f : Nat) (l : List SolType) (c s : Nat) (reg : Registry) (c' s' : Nat),
    (∀ t ∈ l, WidthsOk t) → RegOk reg → c ≤ 256 →
    updList f l c s reg = .ok (c', s') → c' ≤ 256 := by
  intro f
  induction f with
  | zero =>
    intro l c s reg c' s' _ _ _ h
    exact absurd h (by rw [updList]; simp)
  | succ g ih =>
    intro l c s reg c' s' hl hreg hc h
    match l with
    | [] =>
      rw [updList] at h
      obtain ⟨rfl, rfl⟩ : c = c' ∧ s = s' := by simpa using h
      exact hc
    | t :: rest =>
      have hrest : ∀ u ∈ rest, WidthsOk u := fun u hu => hl u (List.mem_cons_of_mem _ hu)
      have hhead : WidthsOk t := hl t (List.mem_cons_self t rest)
      by_cases hvt : isValueType t = true
      · rw [updList_value_step t rest c s g reg hvt] at h
        have hneed : valueTypeBits t ≤ 256 := valueTypeBits_le_of hhead hvt
        by_cases hcond : valueTypeBits t ≤ 256 - c
        · rw [if_pos hcond] at h
          exact ih rest _ _ reg c' s' hrest hreg (by omega) h
        · rw [if_neg hcond] at h
          exact ih rest _ _ reg c' s' hrest hreg hneed h
      · cases t with
        | Uint w => exact absurd rfl hvt
        | Int w => exact absurd rfl hvt
        | Address => exact absurd rfl hvt
        | Bool => exact absurd rfl hvt
        | Bytes n => exact absurd rfl hvt
        | BytesArbitrary =>
          rw [updList] at h
          exact ih rest _ _ reg c' s' hrest hreg (by omega) h
        | Mapping k v =>
          rw [updList] at h
          exact ih rest _ _ reg c' s' hrest hreg (by omega) h
        | Array e =>
          rw [updList] at h
          exact ih rest _ _ reg c' s' hrest hreg (by omega) h
        | Custom sname fields =>
          rw [updList] at h
          cases heq : updList g (fieldTypes fields) 0 0 reg with
          | error e => rw [heq] at h; exact absurd h (by simp)
          | ok p =>
            rw [heq] at h
            simp only at h
            exact ih rest _ _ reg c' s' hrest hreg (by omega) h
        | FixedArray elem len =>
          rw [updList] at h
          cases heq : updList g (List.replicate len elem) 0 (snap_to_upper_256 s) reg with
          | error e => rw [heq] at h; exact absurd h (by simp)
          | ok p =>
            rw [heq] at h
            simp only at h
            obtain ⟨p1, p2⟩ := p
            have helem : WidthsOk elem := by cases hhead with | fixedArray he => exact he
            have hp1 : p1 ≤ 256 :=
              ih (List.replicate len elem) 0 (snap_to_upper_256 s) reg p1 p2
                (fun u hu => by rw [List.eq_of_mem_replicate hu]; exact helem)
                hreg (by omega) heq
            exact ih rest _ _ reg c' s' hrest hreg hp1 h
        | Custom2 name =>
          rw [updList] at h
          cases hlk : lookupReg reg name with
          | none => rw [hlk] at h; exact absurd h (by simp)
          | some st =>
            rw [hlk] at h
            simp only at h
            cases heq : updList g [SolType.Custom st.1 st.2] c s reg with
            | error e => rw [heq] at h; exact absurd h (by simp)
            | ok p =>
              rw [heq] at h
              simp only at h
              obtain ⟨p1, p2⟩ := p
              have hstw : WidthsOk (SolType.Custom st.1 st.2) := by
                obtain ⟨k, hk⟩ := lookupReg_mem reg name st hlk
                exact WidthsOk.custom (fun q hq => hreg (k, st) hk q hq)
              have hp1 : p1 ≤ 256 :=
                ih [SolType.Custom st.1 st.2] c s reg p1 p2
                  (fun u hu => by rw [List.eq_of_mem_singleton hu]; exact hstw)
                  hreg hc heq
              exact ih rest _ _ reg c' s' hrest hreg hp1 h

theorem slot_bits_bound_invariant_witness :
    updList 2 [SolType.Uint 8] 0 0 [] = .ok (8, 8) ∧ (8 : Nat) ≤ 256 :=
  ⟨rfl, slot_bits_bound_invariant 2 [SolType.Uint 8] 0 0 [] 8 8
    (fun t ht => by rw [List.eq_of_mem_singleton ht]; exact WidthsOk.uint (by omega))
    (fun e he => absurd he (List.not_mem_nil e))
    (by omega) rfl⟩

/-! Character-class and string lemmas used by the parser claims. -/

theorem ws_chars {c : Char} (h : isWhitespaceCh c = true) :
    c = ' ' ∨ c = '\t' ∨ c = '\n' ∨ c = '\r' := by
  have h2 := h
  simp [isWhitespaceCh] at h2
  tauto

theorem word_not_ws {c : Char} (h : isWordChar c = true) :
    isWhitespaceCh c = false := by
  cases hw : isWhitespaceCh c
  · rfl
  · rcases ws_chars hw with rfl | rfl | rfl | rfl <;> exact absurd h (by decide)

theorem digit_word {c : Char} (h : isDigitCh c = true) : isWordChar c = true := by
  simp [isDigitCh] at h
  simp [isWordChar]
  tauto

theorem digit_not_ws {c : Char} (h : isDigitCh c = true) :
    isWhitespaceCh c = false :=
  word_not_ws (digit_word h)

theorem digit_ne {c : Char} (h : isDigitCh c = true) {c0 : Char}
    (h0 : isDigitCh c0 = false) : c ≠ c0 := by
  intro heq
  rw [heq, h0] at h
  cases h

theorem dropWhile_head_false {p : Char → Bool} {c : Char} {rest : Str}
    (h : p c = false) : (c :: rest).dropWhile p = c :: rest := by
  rw [List.dropWhile_cons, h]
  simp

theorem dropWhile_all_false {p : Char → Bool} {cs : Str}
    (h : ∀ c ∈ cs, p c = false) : cs.dropWhile p = cs := by
  cases cs with
  | nil => rfl
  | cons c rest => exact dropWhile_head_false (h c (List.mem_cons_self c rest))

theorem trimChars_eq_self {cs : Str} (h : ∀ c ∈ cs, isWhitespaceCh c = false) :
    trimChars cs = cs := by
  unfold trimChars
  rw [dropWhile_all_false h,
    dropWhile_all_false (fun c hc => h c (List.mem_reverse.mp hc))]
  exact List.reverse_reverse cs

theorem takeWhile_append_all {p : Char → Bool} : ∀ (xs ys : Str),
    (∀ c ∈ xs, p c = true) → (xs ++ ys).takeWhile p = xs ++ ys.takeWhile p := by
  intro xs
  induction xs with
  | nil => intro ys _; rfl
  | cons x rest ih =>
    intro ys h
    rw [List.cons_append, List.takeWhile_cons, h x (List.mem_cons_self x rest)]
    simp only [if_true]
    rw [ih ys (fun c hc => h c (List.mem_cons_of_mem x hc)), List.cons_append]

theorem dropWhile_append_all {p : Char → Bool} : ∀ (xs ys : Str),
    (∀ c ∈ xs, p c = true) → (xs ++ ys).dropWhile p = ys.dropWhile p := by
  intro xs
  induction xs with
  | nil => intro ys _; rfl
  | cons x rest ih =>
    intro ys h
    rw [List.cons_append, List.dropWhile_cons, h x (List.mem_cons_self x rest)]
    simp only [if_true]
    exact ih ys (fun c hc => h c (List.mem_cons_of_mem x hc))

theorem strPrefixOf_mem : ∀ (p q : Str), strPrefixOf p q = true → ∀ c ∈ p, c ∈ q := by
  intro p
  induction p with
  | nil => intro q _ c hc; exact absurd hc (List.not_mem_nil c)
  | cons a ps ih =>
    intro q h c hc
    cases q with
    | nil => simp [strPrefixOf] at h
    | cons b qs =>
      rw [strPrefixOf, Bool.and_eq_true, beq_iff_eq] at h
      rcases List.mem_cons.mp hc with rfl | hc'
      · rw [h.1]; exact List.mem_cons_self b qs
      · exact List.mem_cons_of_mem b (ih qs h.2 c hc')

theorem strContainsChar_of_mem {s : Str} {c : Char} (h : c ∈ s) :
    strContainsChar s c = true := by
  simp [strContainsChar, List.any_eq_true, beq_iff_eq]
  exact h

theorem strSuffixOf_mem {suf s : Str} (h : strSuffixOf suf s = true) :
    ∀ c ∈ suf, c ∈ s := by
  intro c hc
  exact List.mem_reverse.mp
    (strPrefixOf_mem suf.reverse s.reverse h c (List.mem_reverse.mpr hc))

theorem bytesKeywords_all_no_bracket :
    bytesKeywords.all (fun k => !(strContainsChar k '[')) = true := by decide

theorem uintKeywords_all_no_bracket :
    uintKeywords.all (fun k => !(strContainsChar k '[')) = true := by decide

theorem intKeywords_all_no_bracket :
    intKeywords.all (fun k => !(strContainsChar k '[')) = true := by decide

theorem contains_false_of_bracket {l : List Str}
    (hall : l.all (fun k => !(strContainsChar k '[')) = true)
    {t : Str} (h : strContainsChar t '[' = true) : l.contains t = false := by
  cases hc : l.contains t
  · rfl
  · have ht : t ∈ l := List.mem_of_elem_eq_true hc
    have h2 := List.all_eq_true.mp hall t ht
    rw [h] at h2
    simp at h2

theorem not_mem_of_contains_false {l : List Str} {t : Str}
    (h : l.contains t = false) : t ∉ l := by
  intro hm
  have ht : l.contains t = true := List.elem_eq_true_of_mem hm
  rw [ht] at h
  cases h

theorem not_keyword_of_bracket {t : Str} (h : strContainsChar t '[' = true) :
    t ≠ "uint".data ∧ t ≠ "int".data ∧ t ≠ "address".data ∧ t ≠ "bool".data
    ∧ t ≠ "bytes".data ∧ bytesKeywords.contains t = false
    ∧ uintKeywords.contains t = false ∧ intKeywords.contains t = false := by
  refine ⟨?_, ?_, ?_, ?_, ?_,
    contains_false_of_bracket bytesKeywords_all_no_bracket h,
    contains_false_of_bracket uintKeywords_all_no_bracket h,
    contains_false_of_bracket intKeywords_all_no_bracket h⟩ <;>
  · intro heq
    rw [heq] at h
    exact absurd h (by decide)

/-- C6: any string whose trimmed form matches none of the keyword, mapping,
dynamic-repetition and fixed-repetition dispatch conditions parses, at any
fuel, to the deferred reference Custom2 carrying the original (untrimmed)
input; sizing a deferred reference whose name is not registered fails with the
unknown-struct error at top level and with the struct-not-found error inside a
record fold, while a registered name is resolved to the stored struct and
processed as an inline record, the remaining fields continuing from the
resulting state. -/
theorem deferred_reference_rule :
    (∀ (cs : Str) (fuel : Nat),
      trimChars cs ≠ "uint".data → trimChars cs ≠ "int".data →
      trimChars cs ≠ "address".data → trimChars cs ≠ "bool".data →
      trimChars cs ≠ "bytes".data →
      bytesKeywords.contains (trimChars cs) = false →
      uintKeywords.contains (trimChars cs) = false →
      intKeywords.contains (trimChars cs) = false →
      strPrefixOf "mapping".data (trimChars cs) = false →
      strSuffixOf "[]".data (trimChars cs) = false →
      (strContainsChar (trimChars cs) '[' && strContainsChar (trimChars cs) ']') = false →
      fromStr (fuel + 1) cs = .ok (.Custom2 cs))
    ∧ (∀ (name : Str) (reg : Registry) (fuel : Nat),
      lookupReg reg name = none →
      sizeF (fuel + 1) (.Custom2 name) reg = .error (.unknownStruct name))
    ∧ (∀ (name : Str) (reg : Registry) (fuel : Nat) (rest : List SolType) (c s : Nat),
      lookupReg reg name = none →
      updList (fuel + 1) (.Custom2 name :: rest) c s reg
        = .error (.structNotFound name))
    ∧ (∀ (name : Str) (reg : Registry) (st : StructDef) (fuel : Nat)
        (rest : List SolType) (c s : Nat) (p : Nat × Nat),
      lookupReg reg name = some st →
      updList fuel [SolType.Custom st.1 st.2] c s reg = .ok p →
      updList (fuel + 1) (.Custom2 name :: rest) c s reg
        = updList fuel rest p.1 p.2 reg) := by
  refine ⟨?_, ?_, ?_, ?_⟩
  · intro cs fuel h1 h2 h3 h4 h5 h6 h7 h8 h9 h10 h11
    have h6m := not_mem_of_contains_false h6
    have h7m := not_mem_of_contains_false h7
    have h8m := not_mem_of_contains_false h8
    simp [fromStr, h1, h2, h3, h4, h5, h6m, h7m, h8m, h9, h10, h11]
  · intro name reg fuel hkey
    rw [sizeF, hkey]
  · intro name reg fuel rest c s hkey
    rw [updList, hkey]
  · intro name reg st fuel rest c s p hkey hp
    rw [updList, hkey]
    simp only
    rw [hp]

theorem deferred_reference_rule_witness :
    fromStr 1 "MyStruct".data = .ok (.Custom2 "MyStruct".data)
    ∧ sizeF 1 (.Custom2 "Foo".data) [] = .error (.unknownStruct "Foo".data) :=
  ⟨deferred_reference_rule.1 "MyStruct".data 0 (by decide) (by decide) (by decide)
      (by decide) (by decide) (by decide) (by decide) (by decide) (by decide)
      (by decide) (by decide),
   deferred_reference_rule.2.1 "Foo".data [] 0 rfl⟩

/-- C9 counterexample: the input "mapping(a=>b)[]" ends with "[]" but is not
handled by the dynamic-repetition branch at all: the mapping arm matches
first, no occurrence of "[]" is removed, and the parse result is a key/value
container, not a dynamic repetition. -/
theorem dynamic_suffix_claim_counterexample :
    strSuffixOf "[]".data "mapping(a=>b)[]".data = true
    ∧ fromStr 2 "mapping(a=>b)[]".data
        = .ok (.Mapping (.Custom2 "a".data) (.Custom2 "b".data)) :=
  ⟨by decide, rfl⟩

/-- C9 (amended): for every input whose trimmed form ends with "[]" and does
not begin with "mapping" (no keyword contains a bracket, so the keyword arms
cannot match either), the parser removes every occurrence of the substring
"[]" from the trimmed string — not only the trailing one — and parses the
remainder as the element type of a dynamic repetition; hence "uint[][]"
parses as a single-level dynamic repetition of uint. -/
theorem dynamic_suffix_strip_rule :
    (∀ (cs : Str) (fuel : Nat),
      strSuffixOf "[]".data (trimChars cs) = true →
      strPrefixOf "mapping".data (trimChars cs) = false →
      fromStr (fuel + 1) cs =
        match fromStr fuel (removeBrackets (trimChars cs)) with
        | .error e => .error e
        | .ok inner => .ok (.Array inner))
    ∧ fromStr 2 "uint[][]".data = .ok (.Array (.Uint 256))
    ∧ removeBrackets (trimChars "uint[][]".data) = "uint".data := by
  refine ⟨?_, rfl, rfl⟩
  intro cs fuel hsuf hmap
  have hbr : strContainsChar (trimChars cs) '[' = true :=
    strContainsChar_of_mem (strSuffixOf_mem hsuf '[' (by decide))
  obtain ⟨k1, k2, k3, k4, k5, k6, k7, k8⟩ := not_keyword_of_bracket hbr
  have k6m := not_mem_of_contains_false k6
  have k7m := not_mem_of_contains_false k7
  have k8m := not_mem_of_contains_false k8
  simp [fromStr, k1, k2, k3, k4, k5, k6m, k7m, k8m, hmap, hsuf]

theorem dynamic_suffix_strip_rule_witness :
    fromStr 2 "uint[][]".data = .ok (.Array (.Uint 256)) :=
  (dynamic_suffix_strip_rule.1 "uint[][]".data 1 (by decide) (by decide)).trans rfl

theorem parseUInt_digits {bound : Nat} {N : Str} (hNne : N ≠ [])
    (hNd : ∀ c ∈ N, isDigitCh c = true) (hb : digitsToNat N ≤ bound) :
    parseUInt bound N = some (digitsToNat N) := by
  obtain ⟨n0, N', rfl⟩ := List.exists_cons_of_ne_nil hNne
  have hplus : ¬ (n0 = '+') := fun hx =>
    digit_ne (hNd n0 (List.mem_cons_self n0 N'))
      (show isDigitCh '+' = false from by decide) hx
  have hall : (n0 :: N').all isDigitCh = true := List.all_eq_true.mpr hNd
  simp [parseUInt, hplus, hall, hb]

/-- C8 counterexample: the single \w+ word "mapping" with count 2 forms the
string "mapping[2]", which is dispatched to the mapping branch (it begins with
"mapping"), where the mapping regex fails: the parse errors instead of
producing a fixed repetition.  Separately, a count beyond u64::MAX (here
2^64) is rejected by the integer-literal parse, so the claim also fails for
such decimal literals. -/
theorem fixed_array_roundtrip_counterexample :
    fromStr 2 ("mapping".data ++ ('[' :: ("2".data ++ [']'])))
        = .error (.mappingNoMatch "mapping[2]".data)
    ∧ "mapping".data.all isWordChar = true
    ∧ "2".data.all isDigitCh = true
    ∧ fromStr 2 ("a".data ++ ('[' :: ("18446744073709551616".data ++ [']'])))
        = .error (.intLit "18446744073709551616".data) :=
  ⟨rfl, by decide, by decide, rfl⟩

/-- C8 (amended): for every nonempty \w+ word T and nonempty digit string N
such that T[N] does not begin with "mapping" and N's value fits in u64,
parsing the string T[N] reaches the fixed-repetition branch, the regex
captures exactly T and N, and the result is the fixed repetition of the parse
of T with repeat count the value of N — recovering the parse of T and the
number N exactly (an error in parsing T propagates unchanged). -/
theorem fixed_array_roundtrip :
    ∀ (T N : Str) (fuel : Nat),
    T ≠ [] → (∀ c ∈ T, isWordChar c = true) →
    N ≠ [] → (∀ c ∈ N, isDigitCh c = true) →
    strPrefixOf "mapping".data (T ++ ('[' :: (N ++ [']']))) = false →
    digitsToNat N ≤ u64Max →
    fromStr (fuel + 1) (T ++ ('[' :: (N ++ [']']))) =
      match fromStr fuel T with
      | .error e => .error e
      | .ok t => .ok (.FixedArray t (digitsToNat N)) := by
  intro T N fuel hTne hTw hNne hNd hmap hbound
  have hs_ws : ∀ c ∈ T ++ ('[' :: (N ++ [']'])), isWhitespaceCh c = false := by
    intro c hc
    rcases List.mem_append.mp hc with h | h
    · exact word_not_ws (hTw c h)
    · rcases List.mem_cons.mp h with rfl | h2
      · decide
      · rcases List.mem_append.mp h2 with h3 | h3
        · exact digit_not_ws (hNd c h3)
        · rcases List.mem_cons.mp h3 with rfl | h4
          · decide
          · exact absurd h4 (List.not_mem_nil c)
  have htrim : trimChars (T ++ ('[' :: (N ++ [']']))) = T ++ ('[' :: (N ++ [']'])) :=
    trimChars_eq_self hs_ws
  have hbrL : '[' ∈ T ++ ('[' :: (N ++ [']'])) :=
    List.mem_append_right T (List.mem_cons_self _ _)
  have hbrR : ']' ∈ T ++ ('[' :: (N ++ [']'])) :=
    List.mem_append_right T
      (List.mem_cons_of_mem _ (List.mem_append_right N (List.mem_cons_self _ _)))
  have hcontL := strContainsChar_of_mem hbrL
  have hcontR := strContainsChar_of_mem hbrR
  obtain ⟨k1, k2, k3, k4, k5, k6, k7, k8⟩ := not_keyword_of_bracket hcontL
  have k6m := not_mem_of_contains_false k6
  have k7m := not_mem_of_contains_false k7
  have k8m := not_mem_of_contains_false k8
  obtain ⟨d, M, hrev⟩ := List.exists_cons_of_ne_nil
    (show N.reverse ≠ [] from by simpa using hNne)
  have hd : isDigitCh d = true :=
    hNd d (List.mem_reverse.mp (hrev ▸ List.mem_cons_self d M))
  have hsuf : strSuffixOf "[]".data (T ++ ('[' :: (N ++ [']']))) = false := by
    rw [strSuffixOf]
    have h1 : ("[]".data).reverse = [']', '['] := rfl
    have h2 : (T ++ ('[' :: (N ++ [']']))).reverse
        = ']' :: (N.reverse ++ ('[' :: T.reverse)) := by
      simp
    rw [h1, h2, hrev]
    simp only [List.cons_append]
    rw [strPrefixOf, strPrefixOf]
    have hdne : ('[' == d) = false :=
      beq_eq_false_iff_ne.mpr (Ne.symm (digit_ne hd (by decide)))
    simp [hdne]
  have hbw : isWordChar '[' = false := by decide
  have htake : (T ++ ('[' :: (N ++ [']']))).takeWhile isWordChar = T := by
    rw [takeWhile_append_all T _ hTw, List.takeWhile_cons, hbw]
    simp
  have hdropw : (T ++ ('[' :: (N ++ [']']))).dropWhile isWordChar
      = '[' :: (N ++ [']']) := by
    rw [dropWhile_append_all T _ hTw]
    exact dropWhile_head_false hbw
  have hTempty : T.isEmpty = false := by
    cases T with
    | nil => exact absurd rfl hTne
    | cons a b => rfl
  obtain ⟨n0, N', hNc⟩ := List.exists_cons_of_ne_nil hNne
  have hn0 : isDigitCh n0 = true := hNd n0 (hNc ▸ List.mem_cons_self n0 N')
  have hNempty : N.isEmpty = false := by rw [hNc]; rfl
  have hbws : isWhitespaceCh '[' = false := by decide
  have hNheadws : (N ++ [']']).dropWhile isWhitespaceCh = N ++ [']'] := by
    rw [hNc, List.cons_append]
    exact dropWhile_head_false (digit_not_ws hn0)
  have hbd : isDigitCh ']' = false := by decide
  have htaked : (N ++ [']']).takeWhile isDigitCh = N := by
    rw [takeWhile_append_all N _ hNd, List.takeWhile_cons, hbd]
    simp
  have hdropd : (N ++ [']']).dropWhile isDigitCh = [']'] := by
    rw [dropWhile_append_all N _ hNd]
    exact dropWhile_head_false hbd
  have hfa : faMatchAt (T ++ ('[' :: (N ++ [']']))) = some (T, N) := by
    simp only [faMatchAt, htake, hdropw, hTempty, dropWhile_head_false hbws,
      hNheadws, htaked, hNempty, hdropd]
    simp [dropWhile_head_false (show isWhitespaceCh ']' = false from by decide)]
  have hsearch : faSearch (T ++ ('[' :: (N ++ [']']))) = some (T, N) := by
    obtain ⟨t0, T', hT⟩ := List.exists_cons_of_ne_nil hTne
    rw [hT, List.cons_append] at hfa
    rw [hT, List.cons_append, faSearch, hfa]
  have hpu : parseUInt u64Max N = some (digitsToNat N) :=
    parseUInt_digits hNne hNd hbound
  simp [fromStr, htrim, k1, k2, k3, k4, k5, k6m, k7m, k8m, hmap, hsuf,
    hcontL, hcontR, hsearch, hpu]

theorem fixed_array_roundtrip_witness :
    fromStr 2 ("uint8".data ++ ('[' :: ("12".data ++ [']'])))
      = .ok (.FixedArray (.Uint 8) 12) :=
  (fixed_array_roundtrip "uint8".data "12".data 1 (by decide) (by decide)
    (by decide) (by decide) (by decide) (by decide)).trans rfl
